import Mathlib

/-!
Shallow embedding of the encrypted-notes core of the `tui-notes` repository
(`src/encryption.rs` and `src/note.rs`), together with proofs about the
frozen specification claims.

Modelling conventions:
* Byte strings are `List Nat` (each entry a byte value).
* `io::Error` is a kind plus its message string.
* External crates (the ChaCha20Poly1305 AEAD, base64, and the Argon2id KDF)
  are not repository code; they are abstracted as explicit function
  parameters (`Cipher`, `B64`, `kdf`), with the properties the repository
  relies on stated as hypotheses of the theorems that need them.
* Random values produced by `OsRng` (the per-call nonce) and by
  `Uuid::new_v4` / `Utc::now` (fresh note ids and timestamps) are
  derandomised: they become explicit arguments.
* `serde_json` parsing of the whole file is abstracted by the
  `FileContent` view: a file's text either is blank after trimming,
  parses as a plaintext note mapping, parses as an `EncryptedFile`
  envelope, or parses as neither.  (A JSON object of four string fields
  never parses as `HashMap<String, Note>` and vice versa, so the two
  parses are mutually exclusive in the real code as well.)
* Rust's `HashMap<String, Note>` is modelled as an association list with
  pairwise-distinct keys; its unspecified iteration order becomes the
  list order.
-/

namespace TuiNotes

/-- Byte strings. -/
abbrev Bytes := List Nat

/-- The `io::ErrorKind` values the program uses. -/
inductive ErrKind
  | invalidInput
  | invalidData
  | permissionDenied
  deriving DecidableEq, Repr

/-- An `io::Error`: a kind plus its message. -/
structure IoErr where
  kind : ErrKind
  msg : String
  deriving DecidableEq, Repr

/-- `MIN_PASSWORD_LENGTH` from `encryption.rs`. -/
def MIN_PASSWORD_LENGTH : Nat := 8

/-- `MAX_PASSWORD_LENGTH` from `encryption.rs`. -/
def MAX_PASSWORD_LENGTH : Nat := 256

/-- `MAX_CONTENT_SIZE` from `encryption.rs` (100 MiB). -/
def MAX_CONTENT_SIZE : Nat := 100 * 1024 * 1024

/-- `MAGIC_HEADER` from `encryption.rs`. -/
def MAGIC_HEADER : String := "ENCRYPTED_NOTES"

/-- The UTF-8 bytes of a string, as used by `str::as_bytes`. The magic
    header is ASCII, for which `Char.toNat` is exactly the byte value. -/
def strBytes (s : String) : Bytes := s.data.map Char.toNat

/-- The `EncryptedFile` struct: all four fields are strings in the file
    (`salt`, `nonce`, `data` hold base64 text). -/
structure EncryptedFile where
  magic : String
  salt : String
  nonce : String
  data : String
  deriving DecidableEq, Repr

/-- A derived 32-byte symmetric key. -/
abbrev Key := Bytes

/-- `EncryptionManager`: holds the optional key. -/
structure EncryptionManager where
  key : Option Key
  deriving DecidableEq, Repr

/-- `EncryptionManager::new`. -/
def EncryptionManager.new : EncryptionManager := ⟨none⟩

/-- `EncryptionManager::is_unlocked`. -/
def EncryptionManager.is_unlocked (m : EncryptionManager) : Bool := m.key.isSome

/-- `subtle`'s `ct_eq` on byte slices, instrumented with the number of
    byte operations performed: unequal lengths answer `false` without
    examining any byte; equal lengths always xor-accumulate over every
    byte with no early exit, so the count is the full length. -/
def ctEqC (a b : Bytes) : Bool × Nat :=
  if a.length = b.length then
    (((List.zipWith (· ^^^ ·) a b).foldl (· ||| ·) 0) == 0, a.length)
  else (false, 0)

/-- The boolean result of the constant-time comparison. -/
def ctEq (a b : Bytes) : Bool := (ctEqC a b).1

/-- Rust's derived `==` on byte sequences (after the length check),
    instrumented with the number of elements examined: comparison stops
    at the first mismatch. -/
def eqScanAux : Bytes → Bytes → Bool × Nat
  | [], _ => (true, 0)
  | _ :: _, [] => (false, 0)
  | a :: as, b :: bs =>
    if a = b then
      let r := eqScanAux as bs
      (r.1, r.2 + 1)
    else (false, 1)

/-- Rust's `==` on strings/byte slices, instrumented: a length check,
    then a bytewise comparison that short-circuits at the first
    mismatch. -/
def eqScC (a b : Bytes) : Bool × Nat :=
  if a.length = b.length then eqScanAux a b else (false, 0)

/-- The ChaCha20Poly1305 AEAD from the `chacha20poly1305` crate,
    abstracted: `enc key nonce plaintext` produces ciphertext with the
    16-byte Poly1305 tag appended; `dec key nonce ciphertext` fails on
    authentication failure. -/
structure Cipher where
  enc : Key → Bytes → Bytes → Bytes
  dec : Key → Bytes → Bytes → Option Bytes

/-- base64 `general_purpose::STANDARD` from the `base64` crate,
    abstracted: `enc` encodes bytes to text, `dec` fails on invalid
    base64 text. -/
structure B64 where
  enc : Bytes → String
  dec : String → Option Bytes

/-- `EncryptionManager::unlock`.  Key derivation (`derive_key`, Argon2id
    from the `argon2` crate) is the abstract argument `kdf`; it is only
    consulted after the validations.  `password.len()` in the source is
    the UTF-8 byte length of the string. -/
def EncryptionManager.unlock (kdf : String → Bytes → Except IoErr Key)
    (m : EncryptionManager) (password : String) (salt : Bytes) :
    Except IoErr EncryptionManager :=
  if password.utf8ByteSize < MIN_PASSWORD_LENGTH then
    .error ⟨.invalidInput, "password too short"⟩
  else if password.utf8ByteSize > MAX_PASSWORD_LENGTH then
    .error ⟨.invalidInput, "password too long"⟩
  else if salt.length ≠ 16 then
    .error ⟨.invalidInput, "invalid salt length"⟩
  else
    match kdf password salt with
    | .error e => .error e
    | .ok key => .ok ⟨some key⟩

/-- `EncryptionManager::encrypt`.  The randomly generated nonce is the
    explicit argument `nonce`. -/
def EncryptionManager.encrypt (c : Cipher) (b : B64) (m : EncryptionManager)
    (data salt nonce : Bytes) : Except IoErr EncryptedFile :=
  if data.length > MAX_CONTENT_SIZE then
    .error ⟨.invalidInput, "content too large"⟩
  else if salt.length ≠ 16 then
    .error ⟨.invalidInput, "invalid salt length"⟩
  else
    match m.key with
    | none => .error ⟨.permissionDenied, "not unlocked"⟩
    | some key =>
      let ciphertext := c.enc key nonce data
      .ok ⟨MAGIC_HEADER, b.enc salt, b.enc nonce, b.enc ciphertext⟩

/-- `EncryptionManager::decrypt`. -/
def EncryptionManager.decrypt (c : Cipher) (b : B64) (m : EncryptionManager)
    (encrypted : EncryptedFile) : Except IoErr Bytes :=
  match m.key with
  | none => .error ⟨.permissionDenied, "not unlocked"⟩
  | some key =>
    if !(ctEq (strBytes encrypted.magic) (strBytes MAGIC_HEADER)) then
      .error ⟨.invalidData, "invalid format"⟩
    else
      match b.dec encrypted.nonce with
      | none => .error ⟨.invalidData, "invalid format"⟩
      | some nonce_bytes =>
        match b.dec encrypted.data with
        | none => .error ⟨.invalidData, "invalid format"⟩
        | some ciphertext =>
          if nonce_bytes.length ≠ 12 ∨ ciphertext.length > MAX_CONTENT_SIZE + 16 then
            .error ⟨.invalidData, "invalid format"⟩
          else
            match c.dec key nonce_bytes ciphertext with
            | none => .error ⟨.invalidData, "decryption failed"⟩
            | some plain => .ok plain

/-- A `Note` (`note.rs`).  Timestamps are naturals. -/
structure Note where
  id : String
  title : String
  content : String
  created_at : Nat
  updated_at : Nat
  pinned : Bool
  deriving DecidableEq, Repr

/-- `Note::new`, with the fresh uuid and the current time as explicit
    arguments. -/
def Note.new (id : String) (now : Nat) (title content : String) : Note :=
  ⟨id, title, content, now, now, false⟩

/-- The in-memory note mapping (`HashMap<String, Note>`), as an
    association list. -/
abbrev NotesMap := List (String × Note)

/-- The serde-level view of a file's text (see the module comment). -/
inductive FileContent
  | blank
  | notes (nm : NotesMap)
  | enc (e : EncryptedFile)
  | malformed
  deriving DecidableEq, Repr

/-- `serde_json::from_str::<HashMap<String, Note>>` at the `FileContent`
    view: only plaintext note-mapping JSON parses. -/
def parseContent : FileContent → Option NotesMap
  | .notes nm => some nm
  | _ => none

/-- `EncryptionManager::is_file_encrypted`, instrumented with the number
    of byte comparisons the `==` on the magic field performs.  Only
    envelope-shaped JSON parses as `EncryptedFile`; everything else
    (including malformed JSON) yields `false` without comparing. -/
def isFileEncryptedC (content : FileContent) : Bool × Nat :=
  match content with
  | .enc e => eqScC (strBytes e.magic) (strBytes MAGIC_HEADER)
  | _ => (false, 0)

/-- The boolean result of `EncryptionManager::is_file_encrypted`. -/
def isFileEncrypted (content : FileContent) : Bool := (isFileEncryptedC content).1

/-- `HashMap::get`. -/
def mapGet (id : String) : NotesMap → Option Note
  | [] => none
  | (k, v) :: rest => if k = id then some v else mapGet id rest

/-- `HashMap::insert` (replacing an existing binding in place). -/
def mapInsert (id : String) (n : Note) : NotesMap → NotesMap
  | [] => [(id, n)]
  | (k, v) :: rest => if k = id then (id, n) :: rest else (k, v) :: mapInsert id n rest

/-- `HashMap::remove`: the removed value, if any, and the remaining map. -/
def mapRemoveGet (id : String) : NotesMap → Option Note × NotesMap
  | [] => (none, [])
  | (k, v) :: rest =>
    if k = id then (some v, rest)
    else
      let r := mapRemoveGet id rest
      (r.1, (k, v) :: r.2)

/-- The keys of a note mapping. -/
def keys (nm : NotesMap) : List String := nm.map Prod.fst

/-- `NoteManager` (`note.rs`).  The backing file itself is not part of
    the state: its content is passed to / returned from the load and
    save operations explicitly. -/
structure NoteManager where
  notes : NotesMap
  sorted_note_ids : List String
  cache_dirty : Bool
  encryption : EncryptionManager
  encryption_enabled : Bool
  salt : Option Bytes
  deriving DecidableEq, Repr

/-- The freshly constructed state of `NoteManager::new`, before the
    constructor's plaintext `load_notes` call. -/
def NoteManager.init (encryption_enabled : Bool) : NoteManager :=
  ⟨[], [], true, EncryptionManager.new, encryption_enabled, none⟩

/-- `NoteManager::is_ready`. -/
def NoteManager.is_ready (m : NoteManager) : Bool :=
  if m.encryption_enabled then m.encryption.is_unlocked else true

/-- `NoteManager::add_note`, with the fresh uuid and timestamp as
    explicit arguments; returns the stored note alongside the new
    state. -/
def NoteManager.add_note (m : NoteManager) (id : String) (now : Nat)
    (title content : String) : NoteManager × Note :=
  let note := Note.new id now title content
  ({ m with notes := mapInsert id note m.notes, cache_dirty := true }, note)

/-- `NoteManager::get_note_mut`: a present note hands out a mutable
    reference (the caller's eventual mutation is the function `f`) and
    conservatively marks the cache dirty; an absent id changes
    nothing. -/
def NoteManager.get_note_mut (m : NoteManager) (id : String) (f : Note → Note) :
    Bool × NoteManager :=
  match mapGet id m.notes with
  | some n => (true, { m with notes := mapInsert id (f n) m.notes, cache_dirty := true })
  | none => (false, m)

/-- `NoteManager::delete_note`. -/
def NoteManager.delete_note (m : NoteManager) (id : String) :
    Option Note × NoteManager :=
  let r := mapRemoveGet id m.notes
  if r.1.isSome then (r.1, { m with notes := r.2, cache_dirty := true })
  else (r.1, { m with notes := r.2 })

/-- The comparator of `update_sorted_cache`: pinned first, then
    `updated_at` descending. -/
def noteCmp (a b : Note) : Ordering :=
  match compare b.pinned a.pinned with
  | .eq => compare b.updated_at a.updated_at
  | o => o

/-- The boolean "may come first" relation induced by `noteCmp`, as used
    by the stable sort. -/
def noteLe (a b : Note) : Bool :=
  match noteCmp a b with
  | .gt => false
  | _ => true

/-- `noteLe` lifted to map entries. -/
def pairLe (p q : String × Note) : Bool := noteLe p.2 q.2

/-- `NoteManager::update_sorted_cache`. -/
def NoteManager.update_sorted_cache (m : NoteManager) : NoteManager :=
  if !m.cache_dirty then m
  else
    let sorted := m.notes.mergeSort pairLe
    { m with sorted_note_ids := sorted.map Prod.fst, cache_dirty := false }

/-- `NoteManager::get_all_notes`. -/
def NoteManager.get_all_notes (m : NoteManager) : List Note × NoteManager :=
  let m' := m.update_sorted_cache
  (m'.sorted_note_ids.filterMap (fun id => mapGet id m'.notes), m')

/-- `str::to_lowercase`, character by character. -/
def lowerStr (s : String) : String := String.mk (s.data.map Char.toLower)

/-- `str::contains` (substring containment), on character lists. -/
def seqContains (needle : List Char) : List Char → Bool
  | [] => needle.isEmpty
  | c :: t => needle.isPrefixOf (c :: t) || seqContains needle t

/-- `hay.contains(needle)` on strings. -/
def strContains (hay needle : String) : Bool := seqContains needle.data hay.data

/-- The match predicate of `search_notes` (the query argument is already
    lowercased). -/
def noteMatches (query_lower : String) (n : Note) : Bool :=
  strContains (lowerStr n.title) query_lower ||
    strContains (lowerStr n.content) query_lower

/-- `NoteManager::search_notes`. -/
def NoteManager.search_notes (m : NoteManager) (query : String) :
    List Note × NoteManager :=
  if query = "" then m.get_all_notes
  else
    let m' := m.update_sorted_cache
    let query_lower := lowerStr query
    ((m'.sorted_note_ids.filterMap (fun id => mapGet id m'.notes)).filter
      (noteMatches query_lower), m')

/-- `NoteManager::save_notes`: returns the file content written on
    success.  `ser` models `serde_json::to_string_pretty` of the note
    mapping, as the byte string handed to `encrypt`; the plaintext
    branch writes the mapping's own JSON, i.e. `FileContent.notes`. -/
def NoteManager.save_notes (c : Cipher) (b : B64) (ser : NotesMap → Bytes)
    (nonce : Bytes) (m : NoteManager) : Except IoErr FileContent :=
  if !m.is_ready then .error ⟨.permissionDenied, "notes manager is not ready"⟩
  else
    let json := ser m.notes
    if m.encryption_enabled then
      match m.salt with
      | none => .error ⟨.invalidData, "no salt available for encryption"⟩
      | some salt =>
        match m.encryption.encrypt c b json salt nonce with
        | .error e => .error e
        | .ok encrypted => .ok (.enc encrypted)
    else
      .ok (.notes m.notes)

/-- The outcome of `NoteManager::load_notes`: the error if any, the
    resulting manager state (the source method mutates `&mut self`; an
    early error leaves the state as it was), and the file content
    written by the migration save, if one happened. -/
structure LoadResult where
  err : Option IoErr
  mgr : NoteManager
  written : Option FileContent
  deriving DecidableEq, Repr

/-- The full error message of the encrypted-file-detected branch. -/
def ENCRYPTED_DETECTED_MSG : String :=
  "ENCRYPTED_FILE_DETECTED: The notes file appears to be encrypted, but encryption is disabled in config. Please enable encryption in config or use a different notes file."

/-- `NoteManager::load_notes`.  `content?` is `none` when the backing
    file does not exist; `parseBytes` models `String::from_utf8`
    followed by `serde_json::from_str::<HashMap<String, Note>>` on
    decrypted bytes (the two distinct source error messages for those
    two steps are collapsed into one here; no claim depends on them).
    `ser` and `nonce` are passed through to the migration save. -/
def NoteManager.load_notes (c : Cipher) (b : B64)
    (parseBytes : Bytes → Option NotesMap) (ser : NotesMap → Bytes)
    (nonce : Bytes) (m : NoteManager) (content? : Option FileContent) :
    LoadResult :=
  match content? with
  | none => ⟨none, m, none⟩
  | some content =>
    if content = .blank then ⟨none, m, none⟩
    else
      let step : Except IoErr (NotesMap × Bool) :=
        if m.encryption_enabled then
          if !m.encryption.is_unlocked then
            .error ⟨.permissionDenied, "encryption key not available"⟩
          else if isFileEncrypted content then
            match content with
            | .enc encrypted =>
              match m.encryption.decrypt c b encrypted with
              | .error e => .error e
              | .ok decrypted =>
                match parseBytes decrypted with
                | none => .error ⟨.invalidData, "decrypted data is not valid notes data"⟩
                | some nm => .ok (nm, false)
            | _ => .error ⟨.invalidData, "failed to parse encrypted file"⟩
          else
            match parseContent content with
            | some nm => .ok (nm, true)
            | none => .error ⟨.invalidData, "failed to parse notes data"⟩
        else
          if isFileEncrypted content then
            .error ⟨.invalidData, ENCRYPTED_DETECTED_MSG⟩
          else
            match parseContent content with
            | some nm => .ok (nm, false)
            | none => .error ⟨.invalidData, "failed to parse notes data"⟩
      match step with
      | .error e => ⟨some e, m, none⟩
      | .ok (nm, needs_migration) =>
        let m' := { m with notes := nm, cache_dirty := true }
        if needs_migration then
          match m'.save_notes c b ser nonce with
          | .error e => ⟨some e, m', none⟩
          | .ok w => ⟨none, m', some w⟩
        else ⟨none, m', none⟩

/-- The mutating operations of claim C3, with their nondeterministic
    inputs (fresh ids, timestamps, the mutation performed through a
    mutable reference) made explicit. -/
inductive Op
  | add (id : String) (now : Nat) (title content : String)
  | del (id : String)
  | getMut (id : String) (f : Note → Note)
  | getAll
  | search (q : String)

/-- One operation applied to the manager state. -/
def NoteManager.step (m : NoteManager) : Op → NoteManager
  | .add id now t c => (m.add_note id now t c).1
  | .del id => (m.delete_note id).2
  | .getMut id f => (m.get_note_mut id f).2
  | .getAll => m.get_all_notes.2
  | .search q => (m.search_notes q).2

/-- A sequence of operations applied in order. -/
def NoteManager.run (m : NoteManager) : List Op → NoteManager
  | [] => m
  | op :: ops => (m.step op).run ops

/-- The sort cache is coherent: the cached ids are (in order) the first
    components of some permutation of the mapping that is sorted by the
    display comparator. -/
def sortedOk (m : NoteManager) : Prop :=
  ∃ pairs : NotesMap, pairs.Perm m.notes ∧
    m.sorted_note_ids = pairs.map Prod.fst ∧
    pairs.Pairwise (fun p q => pairLe p q = true)

/-- The NoteManager state invariant: keys are pairwise distinct, and a
    clean cache is coherent. -/
def Inv (m : NoteManager) : Prop :=
  (keys m.notes).Nodup ∧ (m.cache_dirty = false → sortedOk m)

/-- A toy AEAD used to instantiate theorems with hypotheses at concrete
    inputs: the "tag" is 16 zero bytes, and decryption strips it. -/
def idCipher : Cipher :=
  ⟨fun _ _ d => d ++ List.replicate 16 0,
   fun _ _ ct => if 16 ≤ ct.length then some (ct.take (ct.length - 16)) else none⟩

/-- A toy byte-to-text codec used to instantiate theorems at concrete
    inputs: each byte becomes the character with that code point, and
    (like real base64) the text "!" is not decodable. -/
def chrB64 : B64 :=
  ⟨fun l => String.mk (l.map Char.ofNat),
   fun s => if s = "!" then none else some (s.data.map Char.toNat)⟩

/-- A toy KDF that always succeeds with a fixed key. -/
def constKdf : String → Bytes → Except IoErr Key := fun _ _ => .ok [7]

/-- A toy serializer/parser pair for note mappings, used to instantiate
    theorems at concrete inputs (injective on the single mapping they
    are applied to). -/
def toyNm : NotesMap := [("a", ⟨"a", "T", "C", 0, 0, false⟩)]

/-- Toy serializer: `toyNm` becomes the byte string `[1]`, everything
    else `[0]`. -/
def toySer : NotesMap → Bytes := fun nm => if nm = toyNm then [1] else [0]

/-- Toy parser, inverse to `toySer` on `[1]`. -/
def toyParse : Bytes → Option NotesMap := fun bs => if bs = [1] then some toyNm else none

/-- A concrete note for witnesses. -/
def sampleNote : Note := ⟨"a", "T", "C", 0, 0, false⟩

/-- A concrete plaintext-mode manager holding one note, for witnesses. -/
def sampleMgr : NoteManager :=
  ⟨[("a", sampleNote)], [], true, ⟨none⟩, false, none⟩

/-- A concrete unlocked encryption-mode manager, for witnesses. -/
def sampleEncMgr : NoteManager :=
  ⟨[], [], true, ⟨some [7]⟩, true, some (List.replicate 16 0)⟩

/-! ## Helper lemmas -/

theorem xorFold_self (l : Bytes) :
    (List.zipWith (· ^^^ ·) l l).foldl (· ||| ·) 0 = 0 := by
  induction l with
  | nil => rfl
  | cons a t ih => simpa using ih

/-- The constant-time comparison answers `true` on equal inputs. -/
theorem ctEq_self (l : Bytes) : ctEq l l = true := by
  unfold ctEq ctEqC
  rw [if_pos rfl]
  show ((List.zipWith (· ^^^ ·) l l).foldl (· ||| ·) 0 == 0) = true
  rw [xorFold_self]
  rfl

theorem eqScanAux_self (l : Bytes) : eqScanAux l l = (true, l.length) := by
  induction l with
  | nil => rfl
  | cons a t ih => simp [eqScanAux, ih]

theorem eqScanAux_eq_true {a b : Bytes} (hl : a.length = b.length) :
    (eqScanAux a b).1 = true ↔ a = b := by
  induction a generalizing b with
  | nil =>
    cases b with
    | nil => simp [eqScanAux]
    | cons y ys => simp at hl
  | cons x xs ih =>
    cases b with
    | nil => simp at hl
    | cons y ys =>
      simp only [List.length_cons] at hl
      have hl' : xs.length = ys.length := by omega
      by_cases hxy : x = y
      · subst hxy
        simp [eqScanAux, ih hl']
      · simp [eqScanAux, hxy]

/-- The short-circuiting comparison computes ordinary equality. -/
theorem eqScC_fst_iff (a b : Bytes) : (eqScC a b).1 = true ↔ a = b := by
  unfold eqScC
  by_cases hl : a.length = b.length
  · rw [if_pos hl]
    exact eqScanAux_eq_true hl
  · rw [if_neg hl]
    constructor
    · intro h
      simp at h
    · intro h
      exact absurd (congrArg List.length h) hl

theorem eqScC_self (l : Bytes) : eqScC l l = (true, l.length) := by
  simp [eqScC, eqScanAux_self]

/-! ## Claim theorems -/

/-- C1: for every unlocked EncryptionManager, every 16-byte salt, and
    every byte buffer of at most 100 MiB, decrypting the envelope
    produced by `encrypt` on that buffer with the same held key returns
    exactly the original buffer.  The properties of the external AEAD
    and base64 crates that the code relies on are hypotheses. -/
theorem c1_encrypt_decrypt_roundtrip
    (c : Cipher) (b : B64) (key : Key) (m : EncryptionManager)
    (data salt nonce : Bytes)
    (hk : m.key = some key)
    (hdata : data.length ≤ MAX_CONTENT_SIZE)
    (hsalt : salt.length = 16)
    (hnonce : nonce.length = 12)
    (hb64n : b.dec (b.enc nonce) = some nonce)
    (hb64c : b.dec (b.enc (c.enc key nonce data)) = some (c.enc key nonce data))
    (hclen : (c.enc key nonce data).length = data.length + 16)
    (hcdec : c.dec key nonce (c.enc key nonce data) = some data) :
    ∃ e, m.encrypt c b data salt nonce = .ok e ∧
      m.decrypt c b e = .ok data := by
  refine ⟨⟨MAGIC_HEADER, b.enc salt, b.enc nonce, b.enc (c.enc key nonce data)⟩, ?_, ?_⟩
  · have h1 : ¬ data.length > MAX_CONTENT_SIZE := by omega
    simp [EncryptionManager.encrypt, h1, hsalt, hk]
  · have h2 : ¬ (nonce.length ≠ 12 ∨
        (c.enc key nonce data).length > MAX_CONTENT_SIZE + 16) := by
      rw [hclen]
      omega
    simp [EncryptionManager.decrypt, hk, ctEq_self, hb64n, hb64c, h2, hcdec]

/-- Witness for C1 at concrete inputs. -/
theorem c1_witness :
    ∃ e, EncryptionManager.encrypt idCipher chrB64 ⟨some [7]⟩
        [1, 2, 3] (List.replicate 16 0) (List.replicate 12 0) = .ok e ∧
      EncryptionManager.decrypt idCipher chrB64 ⟨some [7]⟩ e = .ok [1, 2, 3] :=
  c1_encrypt_decrypt_roundtrip idCipher chrB64 [7] ⟨some [7]⟩
    [1, 2, 3] (List.replicate 16 0) (List.replicate 12 0)
    rfl (by decide) (by decide) (by decide) (by decide) (by decide)
    (by decide) (by decide)

/-- C4 counterexample: with the magic correct, a nonce field that
    decodes to 3 bytes is a size failure, and `decrypt` reports it as
    "invalid format" — not as the single generic "decryption failed"
    error the claim asserts for every base64, size, or authentication
    failure. -/
theorem c4_counterexample :
    EncryptionManager.decrypt idCipher chrB64 ⟨some [7]⟩
      ⟨MAGIC_HEADER, "", String.mk (List.replicate 3 'x'), ""⟩ =
      .error ⟨.invalidData, "invalid format"⟩ ∧
    ("invalid format" : String) ≠ "decryption failed" := by
  constructor
  · rfl
  · decide

/-- C4 as amended: the nonce must decode to exactly 12 bytes and the
    ciphertext must not exceed the cap plus the 16-byte tag, both
    checked before any decryption is attempted (for a base64 or size
    failure the result is the same for every cipher); base64 and size
    failures yield the generic "invalid format" error, while an
    authentication failure yields the generic "decryption failed"
    error, so wrong password and tampered ciphertext (both surfacing as
    authentication failures) are not distinguished. -/
theorem c4_amended (b : B64) (key : Key) (e : EncryptedFile)
    (hmagic : ctEq (strBytes e.magic) (strBytes MAGIC_HEADER) = true) :
    (b.dec e.nonce = none →
      ∀ c' : Cipher, EncryptionManager.decrypt c' b ⟨some key⟩ e =
        .error ⟨.invalidData, "invalid format"⟩) ∧
    (∀ nb, b.dec e.nonce = some nb → b.dec e.data = none →
      ∀ c' : Cipher, EncryptionManager.decrypt c' b ⟨some key⟩ e =
        .error ⟨.invalidData, "invalid format"⟩) ∧
    (∀ nb ct, b.dec e.nonce = some nb → b.dec e.data = some ct →
      (nb.length ≠ 12 ∨ ct.length > MAX_CONTENT_SIZE + 16) →
      ∀ c' : Cipher, EncryptionManager.decrypt c' b ⟨some key⟩ e =
        .error ⟨.invalidData, "invalid format"⟩) ∧
    (∀ (c' : Cipher) nb ct, b.dec e.nonce = some nb → b.dec e.data = some ct →
      nb.length = 12 → ct.length ≤ MAX_CONTENT_SIZE + 16 →
      c'.dec key nb ct = none →
      EncryptionManager.decrypt c' b ⟨some key⟩ e =
        .error ⟨.invalidData, "decryption failed"⟩) := by
  refine ⟨?_, ?_, ?_, ?_⟩
  · intro hn c'
    simp [EncryptionManager.decrypt, hmagic, hn]
  · intro nb hn hd c'
    simp [EncryptionManager.decrypt, hmagic, hn, hd]
  · intro nb ct hn hd hsz c'
    simp [EncryptionManager.decrypt, hmagic, hn, hd, hsz]
  · intro c' nb ct hn hd hlen hct hdec
    have hsz : ¬ (nb.length ≠ 12 ∨ ct.length > MAX_CONTENT_SIZE + 16) := by
      omega
    simp [EncryptionManager.decrypt, hmagic, hn, hd, hsz, hdec]

/-- Witness for C4 as amended: an authentication failure at a concrete
    envelope yields "decryption failed". -/
theorem c4_amended_witness :
    EncryptionManager.decrypt idCipher chrB64 ⟨some [7]⟩
      ⟨MAGIC_HEADER, "", String.mk (List.replicate 12 'x'), ""⟩ =
      .error ⟨.invalidData, "decryption failed"⟩ :=
  (c4_amended chrB64 [7] ⟨MAGIC_HEADER, "", String.mk (List.replicate 12 'x'), ""⟩
      (ctEq_self _)).2.2.2 idCipher (List.replicate 12 120) [] (by decide)
    (by decide) (by decide) (by decide) (by decide)

/-- C5 counterexample: `password.len()` in the source is the UTF-8 byte
    length, not the character count.  A five-character password of
    two-byte characters (10 bytes) is accepted by `unlock` — the key is
    derived and set — although the claim requires every password
    shorter than 8 characters to be rejected with a validation error
    leaving the manager locked. -/
theorem c5_counterexample :
    (String.mk (List.replicate 5 'é')).length = 5 ∧
    EncryptionManager.unlock constKdf ⟨none⟩ (String.mk (List.replicate 5 'é'))
      (List.replicate 16 0) = .ok ⟨some [7]⟩ ∧
    EncryptionManager.is_unlocked ⟨some [7]⟩ = true := by
  refine ⟨by decide, ?_, by decide⟩
  rfl

/-- C5 as amended: `unlock` rejects any password whose UTF-8 byte
    length is below 8 or above 256, and any salt not exactly 16 bytes,
    with a validation error — identically for every key-derivation
    function, so before any derivation is attempted; every password of
    8 to 256 bytes with a 16-byte salt passes validation and the
    outcome is the derivation's outcome; a failed unlock produces no
    new state, so a locked manager stays locked with `is_unlocked()`
    false. -/
theorem c5_amended (kdf : String → Bytes → Except IoErr Key)
    (m : EncryptionManager) (p : String) (s : Bytes) :
    (p.utf8ByteSize < 8 →
      EncryptionManager.unlock kdf m p s =
        .error ⟨.invalidInput, "password too short"⟩) ∧
    (8 ≤ p.utf8ByteSize → 256 < p.utf8ByteSize →
      EncryptionManager.unlock kdf m p s =
        .error ⟨.invalidInput, "password too long"⟩) ∧
    (8 ≤ p.utf8ByteSize → p.utf8ByteSize ≤ 256 → s.length ≠ 16 →
      EncryptionManager.unlock kdf m p s =
        .error ⟨.invalidInput, "invalid salt length"⟩) ∧
    (8 ≤ p.utf8ByteSize → p.utf8ByteSize ≤ 256 → s.length = 16 →
      EncryptionManager.unlock kdf m p s =
        match kdf p s with
        | .error e => .error e
        | .ok key => .ok ⟨some key⟩) ∧
    (m.key = none → m.is_unlocked = false) := by
  refine ⟨?_, ?_, ?_, ?_, ?_⟩
  · intro h
    simp [EncryptionManager.unlock, MIN_PASSWORD_LENGTH, h]
  · intro h1 h2
    have : ¬ p.utf8ByteSize < 8 := by omega
    simp [EncryptionManager.unlock, MIN_PASSWORD_LENGTH, MAX_PASSWORD_LENGTH,
      this, h2]
  · intro h1 h2 hs
    have h1' : ¬ p.utf8ByteSize < 8 := by omega
    have h2' : ¬ p.utf8ByteSize > 256 := by omega
    simp [EncryptionManager.unlock, MIN_PASSWORD_LENGTH, MAX_PASSWORD_LENGTH,
      h1', h2', hs]
  · intro h1 h2 hs
    have h1' : ¬ p.utf8ByteSize < 8 := by omega
    have h2' : ¬ p.utf8ByteSize > 256 := by omega
    simp [EncryptionManager.unlock, MIN_PASSWORD_LENGTH, MAX_PASSWORD_LENGTH,
      h1', h2', hs]
  · intro h
    simp [EncryptionManager.is_unlocked, h]

/-- Witness for C5 as amended at concrete inputs. -/
theorem c5_amended_witness :
    EncryptionManager.unlock constKdf ⟨none⟩ "pw" [0] =
      .error ⟨.invalidInput, "password too short"⟩ ∧
    EncryptionManager.unlock constKdf ⟨none⟩ "longenough" (List.replicate 16 0) =
      .ok ⟨some [7]⟩ :=
  ⟨(c5_amended constKdf ⟨none⟩ "pw" [0]).1 (by decide),
   (c5_amended constKdf ⟨none⟩ "longenough" (List.replicate 16 0)).2.2.2.1
     (by decide) (by decide) (by decide)⟩

/-- C6 counterexample: in `is_file_encrypted` the magic field is
    compared with the ordinary short-circuiting `==`, not a
    constant-time comparison: for two magic values of the same length
    as the expected constant, the number of byte comparisons performed
    depends on where the first mismatch occurs (1 byte examined versus
    15). -/
theorem c6_counterexample :
    ("ANCRYPTED_NOTES" : String).length = MAGIC_HEADER.length ∧
    ("ENCRYPTED_NOTEZ" : String).length = MAGIC_HEADER.length ∧
    (isFileEncryptedC (.enc ⟨"ANCRYPTED_NOTES", "", "", ""⟩)).2 = 1 ∧
    (isFileEncryptedC (.enc ⟨"ENCRYPTED_NOTEZ", "", "", ""⟩)).2 = 15 ∧
    (1 : Nat) ≠ 15 := by
  refine ⟨by decide, by decide, by decide, by decide, by decide⟩

/-- C6 as amended: in `decrypt` the magic is compared in constant time
    — the operation count of `ct_eq` against the magic constant depends
    only on the operand's length — and the check happens before any
    cryptographic operation: a mismatch yields the generic "invalid
    format" error identically for every cipher.  In
    `is_file_encrypted`, however, the magic is compared with the
    ordinary short-circuiting equality: it computes plain equality (its
    cost, per the counterexample, varies with the content). -/
theorem c6_amended :
    (∀ a a' : Bytes, a.length = a'.length →
      (ctEqC a (strBytes MAGIC_HEADER)).2 = (ctEqC a' (strBytes MAGIC_HEADER)).2) ∧
    (∀ (c : Cipher) (b : B64) (key : Key) (e : EncryptedFile),
      ctEq (strBytes e.magic) (strBytes MAGIC_HEADER) = false →
      EncryptionManager.decrypt c b ⟨some key⟩ e =
        .error ⟨.invalidData, "invalid format"⟩) ∧
    (∀ e : EncryptedFile,
      isFileEncrypted (.enc e) = true ↔
        strBytes e.magic = strBytes MAGIC_HEADER) := by
  refine ⟨?_, ?_, ?_⟩
  · intro a a' h
    unfold ctEqC
    rw [h]
    by_cases hl : a'.length = (strBytes MAGIC_HEADER).length
    · rw [if_pos hl, if_pos hl]
    · rw [if_neg hl, if_neg hl]
  · intro c b key e h
    simp [EncryptionManager.decrypt, h]
  · intro e
    unfold isFileEncrypted isFileEncryptedC
    exact eqScC_fst_iff _ _

/-- Witness for C6 as amended at concrete inputs. -/
theorem c6_amended_witness :
    (ctEqC [0, 0, 0] (strBytes MAGIC_HEADER)).2 =
      (ctEqC [9, 9, 9] (strBytes MAGIC_HEADER)).2 ∧
    EncryptionManager.decrypt idCipher chrB64 ⟨some [7]⟩ ⟨"X", "", "", ""⟩ =
      .error ⟨.invalidData, "invalid format"⟩ :=
  ⟨c6_amended.1 [0, 0, 0] [9, 9, 9] (by decide),
   c6_amended.2.1 idCipher chrB64 [7] ⟨"X", "", "", ""⟩ (by decide)⟩

/-! ## Association-list lemmas for the note mapping -/

theorem mapGet_eq_none (id : String) (l : NotesMap) :
    mapGet id l = none ↔ id ∉ keys l := by
  induction l with
  | nil => simp [mapGet, keys]
  | cons p rest ih =>
    obtain ⟨k, v⟩ := p
    by_cases hk : k = id
    · subst hk
      simp [mapGet, keys]
    · simp [mapGet, hk, keys, ih, Ne.symm hk]

theorem mapGet_mem {p : String × Note} {l : NotesMap} (hmem : p ∈ l)
    (hnd : (keys l).Nodup) : mapGet p.1 l = some p.2 := by
  induction l with
  | nil => cases hmem
  | cons q rest ih =>
    obtain ⟨k, v⟩ := q
    simp only [keys, List.map_cons, List.nodup_cons] at hnd
    rcases List.mem_cons.mp hmem with h | h
    · rw [h]
      simp [mapGet]
    · have hne : k ≠ p.1 := by
        intro he
        exact hnd.1 (he ▸ List.mem_map_of_mem Prod.fst h)
      simp only [mapGet, if_neg hne]
      exact ih h hnd.2

theorem mapRemoveGet_fst (id : String) (l : NotesMap) :
    (mapRemoveGet id l).1 = mapGet id l := by
  induction l with
  | nil => rfl
  | cons p rest ih =>
    obtain ⟨k, v⟩ := p
    by_cases hk : k = id <;> simp [mapRemoveGet, mapGet, hk, ih]

theorem mapRemoveGet_of_none {id : String} {l : NotesMap}
    (h : mapGet id l = none) : (mapRemoveGet id l).2 = l := by
  induction l with
  | nil => rfl
  | cons p rest ih =>
    obtain ⟨k, v⟩ := p
    by_cases hk : k = id
    · rw [hk] at h
      simp [mapGet] at h
    · simp only [mapGet, if_neg hk] at h
      simp [mapRemoveGet, hk, ih h]

theorem keys_removeGet_sublist (id : String) (l : NotesMap) :
    (keys (mapRemoveGet id l).2).Sublist (keys l) := by
  induction l with
  | nil => simp [mapRemoveGet, keys]
  | cons p rest ih =>
    obtain ⟨k, v⟩ := p
    by_cases hk : k = id
    · simp only [mapRemoveGet, if_pos hk, keys, List.map_cons]
      exact (List.sublist_cons_self _ _)
    · simp only [mapRemoveGet, if_neg hk, keys, List.map_cons]
      exact ih.cons₂ k

theorem mapGet_removeGet_self (id : String) (l : NotesMap)
    (hnd : (keys l).Nodup) : mapGet id (mapRemoveGet id l).2 = none := by
  induction l with
  | nil => rfl
  | cons p rest ih =>
    obtain ⟨k, v⟩ := p
    simp only [keys, List.map_cons, List.nodup_cons] at hnd
    by_cases hk : k = id
    · subst hk
      simp only [mapRemoveGet, if_pos rfl]
      exact (mapGet_eq_none _ _).mpr hnd.1
    · simp only [mapRemoveGet, if_neg hk, mapGet, if_neg hk]
      exact ih hnd.2

theorem mapGet_removeGet_other (id id' : String) (l : NotesMap)
    (hne : id' ≠ id) :
    mapGet id' (mapRemoveGet id l).2 = mapGet id' l := by
  induction l with
  | nil => rfl
  | cons p rest ih =>
    obtain ⟨k, v⟩ := p
    by_cases hk : k = id
    · subst hk
      simp [mapRemoveGet, mapGet, Ne.symm hne]
    · by_cases hk' : k = id' <;> simp [mapRemoveGet, mapGet, hk, hk', hne, ih]

theorem mem_keys_mapInsert (x id : String) (n : Note) (l : NotesMap) :
    x ∈ keys (mapInsert id n l) ↔ x = id ∨ x ∈ keys l := by
  induction l with
  | nil => simp [mapInsert, keys]
  | cons p rest ih =>
    obtain ⟨k, v⟩ := p
    by_cases hk : k = id
    · subst hk
      simp [mapInsert, keys]
    · simp only [mapInsert, if_neg hk, keys, List.map_cons, List.mem_cons]
      rw [show keys (mapInsert id n rest) = List.map Prod.fst (mapInsert id n rest) from rfl] at ih
      rw [show keys rest = List.map Prod.fst rest from rfl] at ih
      rw [ih]
      tauto

theorem keys_mapInsert_nodup (id : String) (n : Note) (l : NotesMap)
    (hnd : (keys l).Nodup) : (keys (mapInsert id n l)).Nodup := by
  induction l with
  | nil => simp [mapInsert, keys]
  | cons p rest ih =>
    obtain ⟨k, v⟩ := p
    simp only [keys, List.map_cons, List.nodup_cons] at hnd
    by_cases hk : k = id
    · subst hk
      have hins : mapInsert k n ((k, v) :: rest) = (k, n) :: rest := by
        simp [mapInsert]
      rw [hins]
      simp only [keys, List.map_cons, List.nodup_cons]
      exact ⟨hnd.1, hnd.2⟩
    · simp only [mapInsert, if_neg hk, keys, List.map_cons, List.nodup_cons]
      refine ⟨?_, ih hnd.2⟩
      intro hmem
      rcases (mem_keys_mapInsert k id n rest).mp hmem with h | h
      · exact hk h
      · exact hnd.1 h

/-- `delete_note` on an absent id. -/
theorem delete_note_of_none {m : NoteManager} {id : String}
    (h : mapGet id m.notes = none) : m.delete_note id = (none, m) := by
  have h1 : (mapRemoveGet id m.notes).1 = none := by
    rw [mapRemoveGet_fst]
    exact h
  have h2 : (mapRemoveGet id m.notes).2 = m.notes := mapRemoveGet_of_none h
  simp only [NoteManager.delete_note, h1, h2]
  rfl

/-- `delete_note` on a present id. -/
theorem delete_note_of_some {m : NoteManager} {id : String} {n : Note}
    (h : mapGet id m.notes = some n) :
    m.delete_note id =
      (some n, { m with notes := (mapRemoveGet id m.notes).2,
                        cache_dirty := true }) := by
  have h1 : (mapRemoveGet id m.notes).1 = some n := by
    rw [mapRemoveGet_fst]
    exact h
  simp only [NoteManager.delete_note, h1]
  rfl

/-- C9: deleting an absent id returns `None` and leaves the manager
    completely unchanged (mapping, dirty flag and all; no error is
    possible as `delete_note` is total); deleting a present id returns
    exactly that note, removes exactly its binding, and marks the
    cache dirty. -/
theorem c9_delete_note (m : NoteManager) (id : String) :
    (mapGet id m.notes = none → m.delete_note id = (none, m)) ∧
    (∀ n, mapGet id m.notes = some n →
      (m.delete_note id).1 = some n ∧
      (m.delete_note id).2.cache_dirty = true ∧
      ((keys m.notes).Nodup → mapGet id (m.delete_note id).2.notes = none) ∧
      (∀ id', id' ≠ id →
        mapGet id' (m.delete_note id).2.notes = mapGet id' m.notes) ∧
      (m.delete_note id).2.sorted_note_ids = m.sorted_note_ids ∧
      (m.delete_note id).2.encryption = m.encryption ∧
      (m.delete_note id).2.encryption_enabled = m.encryption_enabled ∧
      (m.delete_note id).2.salt = m.salt) := by
  refine ⟨fun h => delete_note_of_none h, fun n h => ?_⟩
  rw [delete_note_of_some h]
  refine ⟨rfl, rfl, fun hnd => ?_, fun id' hne => ?_, rfl, rfl, rfl, rfl⟩
  · exact mapGet_removeGet_self id m.notes hnd
  · exact mapGet_removeGet_other id id' m.notes hne

/-- Witness for C9 at a concrete one-note manager. -/
theorem c9_witness :
    sampleMgr.delete_note "zz" = (none, sampleMgr) ∧
    (sampleMgr.delete_note "a").1 = some sampleNote ∧
    (sampleMgr.delete_note "a").2.cache_dirty = true :=
  ⟨(c9_delete_note sampleMgr "zz").1 (by decide),
   ((c9_delete_note sampleMgr "a").2 sampleNote (by decide)).1,
   ((c9_delete_note sampleMgr "a").2 sampleNote (by decide)).2.1⟩

/-- C10: loading a backing file whose content is empty or whitespace
    only succeeds, leaves the whole manager (in particular the note
    mapping) unchanged and writes nothing — for every manager,
    including one with encryption enabled and unlocked: the blank
    check precedes the encryption branch. -/
theorem c10_blank_load (c : Cipher) (b : B64)
    (parseBytes : Bytes → Option NotesMap) (ser : NotesMap → Bytes)
    (nonce : Bytes) (m : NoteManager) :
    m.load_notes c b parseBytes ser nonce (some .blank) = ⟨none, m, none⟩ := by
  simp [NoteManager.load_notes]

/-- C7: with encryption disabled, loading content detected as
    encrypted fails with the distinct "ENCRYPTED_FILE_DETECTED" error,
    the manager (in particular its note mapping) is unchanged, and
    nothing is written. -/
theorem c7_encrypted_file_detected (c : Cipher) (b : B64)
    (parseBytes : Bytes → Option NotesMap) (ser : NotesMap → Bytes)
    (nonce : Bytes) (m : NoteManager) (e : EncryptedFile)
    (hdis : m.encryption_enabled = false)
    (hdet : isFileEncrypted (.enc e) = true) :
    m.load_notes c b parseBytes ser nonce (some (.enc e)) =
      ⟨some ⟨.invalidData, ENCRYPTED_DETECTED_MSG⟩, m, none⟩ := by
  simp [NoteManager.load_notes, hdis, hdet]

/-- Witness for C7 at concrete inputs. -/
theorem c7_witness :
    (NoteManager.init false).load_notes idCipher chrB64 toyParse toySer []
        (some (.enc ⟨MAGIC_HEADER, "", "", ""⟩)) =
      ⟨some ⟨.invalidData, ENCRYPTED_DETECTED_MSG⟩, NoteManager.init false, none⟩ :=
  c7_encrypted_file_detected idCipher chrB64 toyParse toySer []
    (NoteManager.init false) ⟨MAGIC_HEADER, "", "", ""⟩ rfl (by decide)

/-- The empty needle is contained in every haystack. -/
theorem seqContains_nil (hay : List Char) : seqContains [] hay = true := by
  cases hay <;> simp [seqContains, List.isPrefixOf, List.isEmpty]

/-- The empty query matches every note. -/
theorem noteMatches_empty (n : Note) : noteMatches (lowerStr "") n = true := by
  simp [noteMatches, strContains, lowerStr, seqContains_nil]

/-- C8: `search_notes` returns exactly the notes of `get_all_notes`
    that match the query case-insensitively (lowercased substring test
    over title and content), in the same order and with the same
    resulting manager state; in particular the empty query returns
    exactly `get_all_notes`. -/
theorem c8_search_notes (m : NoteManager) (q : String) :
    m.search_notes q =
      ((m.get_all_notes.1).filter (noteMatches (lowerStr q)),
        m.get_all_notes.2) ∧
    m.search_notes "" = m.get_all_notes := by
  have hempty : ∀ mm : NoteManager, mm.search_notes "" = mm.get_all_notes := by
    intro mm
    unfold NoteManager.search_notes
    rw [if_pos rfl]
  refine ⟨?_, hempty m⟩
  by_cases hq : q = ""
  · subst hq
    rw [hempty m]
    have : (m.get_all_notes.1).filter (noteMatches (lowerStr "")) =
        m.get_all_notes.1 :=
      List.filter_eq_self.mpr fun a _ => noteMatches_empty a
    rw [this]
  · unfold NoteManager.search_notes NoteManager.get_all_notes
    rw [if_neg hq]

/-- C2: with encryption enabled and unlocked, loading plaintext note
    JSON loads the notes and immediately re-saves them encrypted: the
    returned written content is an envelope, it is detected as
    encrypted, and loading that envelope back with the same key
    reproduces the same notes and state.  The external crate
    properties the code relies on are hypotheses. -/
theorem c2_plaintext_migration
    (c : Cipher) (b : B64) (parseBytes : Bytes → Option NotesMap)
    (ser : NotesMap → Bytes) (key : Key) (salt nonce : Bytes)
    (m : NoteManager) (nm : NotesMap)
    (henabled : m.encryption_enabled = true)
    (hkey : m.encryption = ⟨some key⟩)
    (hsalt : m.salt = some salt)
    (hsaltlen : salt.length = 16)
    (hserlen : (ser nm).length ≤ MAX_CONTENT_SIZE)
    (hnonce : nonce.length = 12)
    (hb64n : b.dec (b.enc nonce) = some nonce)
    (hb64c : b.dec (b.enc (c.enc key nonce (ser nm))) =
      some (c.enc key nonce (ser nm)))
    (hclen : (c.enc key nonce (ser nm)).length = (ser nm).length + 16)
    (hcdec : c.dec key nonce (c.enc key nonce (ser nm)) = some (ser nm))
    (hparse : parseBytes (ser nm) = some nm) :
    ∃ e : EncryptedFile,
      m.load_notes c b parseBytes ser nonce (some (.notes nm)) =
        ⟨none, { m with notes := nm, cache_dirty := true }, some (.enc e)⟩ ∧
      isFileEncrypted (.enc e) = true ∧
      ({ m with notes := nm, cache_dirty := true } : NoteManager).load_notes
          c b parseBytes ser nonce (some (.enc e)) =
        ⟨none, { m with notes := nm, cache_dirty := true }, none⟩ := by
  have hnotbig : ¬ (ser nm).length > MAX_CONTENT_SIZE := by omega
  have hsz : ¬ (nonce.length ≠ 12 ∨
      (c.enc key nonce (ser nm)).length > MAX_CONTENT_SIZE + 16) := by
    rw [hclen]
    omega
  have hsave : ({ m with notes := nm, cache_dirty := true } : NoteManager).save_notes
      c b ser nonce = .ok (.enc ⟨MAGIC_HEADER, b.enc salt, b.enc nonce,
        b.enc (c.enc key nonce (ser nm))⟩) := by
    simp [NoteManager.save_notes, NoteManager.is_ready, henabled, hkey,
      EncryptionManager.is_unlocked, hsalt, EncryptionManager.encrypt,
      hnotbig, hsaltlen]
  rw [henabled, hkey] at hsave
  refine ⟨⟨MAGIC_HEADER, b.enc salt, b.enc nonce, b.enc (c.enc key nonce (ser nm))⟩,
    ?_, ?_, ?_⟩
  · simp [NoteManager.load_notes, henabled, hkey, EncryptionManager.is_unlocked,
      isFileEncrypted, isFileEncryptedC, parseContent, hsave]
  · simp [isFileEncrypted, isFileEncryptedC, eqScC_self]
  · simp [NoteManager.load_notes, henabled, hkey, EncryptionManager.is_unlocked,
      isFileEncrypted, isFileEncryptedC, eqScC_self, EncryptionManager.decrypt,
      ctEq_self, hb64n, hb64c, hsz, hcdec, hparse]

/-- Witness for C2 at concrete inputs. -/
theorem c2_witness :
    ∃ e : EncryptedFile,
      sampleEncMgr.load_notes idCipher chrB64 toyParse toySer
          (List.replicate 12 0) (some (.notes toyNm)) =
        ⟨none, { sampleEncMgr with notes := toyNm, cache_dirty := true },
          some (.enc e)⟩ ∧
      isFileEncrypted (.enc e) = true ∧
      ({ sampleEncMgr with notes := toyNm, cache_dirty := true } :
          NoteManager).load_notes idCipher chrB64 toyParse toySer
          (List.replicate 12 0) (some (.enc e)) =
        ⟨none, { sampleEncMgr with notes := toyNm, cache_dirty := true }, none⟩ :=
  c2_plaintext_migration idCipher chrB64 toyParse toySer [7]
    (List.replicate 16 0) (List.replicate 12 0) sampleEncMgr toyNm
    rfl rfl rfl (by decide) (by decide) (by decide) (by decide) (by decide)
    (by decide) (by decide) (by decide)

/-! ## Order lemmas for the display sort -/

theorem noteLe_iff (a b : Note) : noteLe a b = true ↔
    ((b.pinned = true → a.pinned = true) ∧
      (a.pinned = b.pinned → b.updated_at ≤ a.updated_at)) := by
  have cff : compare false false = Ordering.eq := by decide
  have cft : compare false true = Ordering.lt := by decide
  have ctf : compare true false = Ordering.gt := by decide
  have ctt : compare true true = Ordering.eq := by decide
  unfold noteLe noteCmp
  cases ha : a.pinned <;> cases hb : b.pinned <;>
    simp [cff, cft, ctf, ctt] <;>
    rcases hc : compare b.updated_at a.updated_at with _ | _ | _ <;>
    simp_all [Nat.compare_eq_lt, Nat.compare_eq_eq, Nat.compare_eq_gt] <;>
    omega

theorem pairLe_trans (p q r : String × Note)
    (h1 : pairLe p q = true) (h2 : pairLe q r = true) : pairLe p r = true := by
  simp only [pairLe, noteLe_iff] at h1 h2 ⊢
  obtain ⟨h1a, h1b⟩ := h1
  obtain ⟨h2a, h2b⟩ := h2
  refine ⟨fun h => h1a (h2a h), fun h => ?_⟩
  cases hp : (p.2).pinned <;> cases hq : (q.2).pinned <;>
    cases hr : (r.2).pinned <;> simp_all <;> omega

theorem pairLe_total (p q : String × Note) :
    (pairLe p q || pairLe q p) = true := by
  rw [Bool.or_eq_true]
  simp only [pairLe, noteLe_iff]
  cases hp : (p.2).pinned <;> cases hq : (q.2).pinned <;> simp_all <;> omega

/-- Looking the sorted keys back up in the mapping returns exactly the
    sorted values, entry by entry. -/
theorem filterMap_get_eq (pairs l : NotesMap)
    (hsub : ∀ p ∈ pairs, p ∈ l) (hnd : (keys l).Nodup) :
    (pairs.map Prod.fst).filterMap (fun id => mapGet id l) =
      pairs.map Prod.snd := by
  induction pairs with
  | nil => rfl
  | cons p rest ih =>
    simp only [List.map_cons, List.filterMap_cons]
    rw [mapGet_mem (hsub p (List.mem_cons_self p rest)) hnd,
      ih fun x hx => hsub x (List.mem_cons_of_mem _ hx)]

/-- Rebuilding the cache from a state with distinct keys makes it
    coherent; the mapping and all other fields are untouched, and the
    dirty flag ends up clear. -/
theorem update_sorted_cache_spec (m : NoteManager) (h : Inv m) :
    sortedOk m.update_sorted_cache ∧
    m.update_sorted_cache.cache_dirty = false ∧
    m.update_sorted_cache.notes = m.notes := by
  cases hd : m.cache_dirty
  · have hu : m.update_sorted_cache = m := by
      unfold NoteManager.update_sorted_cache
      rw [hd]
      rfl
    rw [hu]
    exact ⟨h.2 hd, hd, rfl⟩
  · have hu : m.update_sorted_cache =
        { m with sorted_note_ids := (m.notes.mergeSort pairLe).map Prod.fst,
                 cache_dirty := false } := by
      unfold NoteManager.update_sorted_cache
      rw [hd]
      rfl
    rw [hu]
    refine ⟨⟨m.notes.mergeSort pairLe, List.mergeSort_perm m.notes pairLe,
      rfl, ?_⟩, rfl, rfl⟩
    exact List.sorted_mergeSort
      (fun a b c hab hbc => pairLe_trans a b c hab hbc)
      (fun a b => pairLe_total a b) m.notes

/-- Every operation preserves the state invariant. -/
theorem step_inv (m : NoteManager) (op : Op) (h : Inv m) : Inv (m.step op) := by
  obtain ⟨hnd, hclean⟩ := h
  cases op with
  | add id now t c =>
    exact ⟨keys_mapInsert_nodup id _ m.notes hnd, by simp [NoteManager.step,
      NoteManager.add_note]⟩
  | del id =>
    cases hget : mapGet id m.notes with
    | none =>
      simp only [NoteManager.step, delete_note_of_none hget]
      exact ⟨hnd, hclean⟩
    | some n =>
      simp only [NoteManager.step, delete_note_of_some hget]
      exact ⟨((keys_removeGet_sublist id m.notes).nodup hnd), by simp⟩
  | getMut id f =>
    cases hget : mapGet id m.notes with
    | none =>
      simp only [NoteManager.step, NoteManager.get_note_mut, hget]
      exact ⟨hnd, hclean⟩
    | some n =>
      simp only [NoteManager.step, NoteManager.get_note_mut, hget]
      exact ⟨keys_mapInsert_nodup id _ m.notes hnd, by simp⟩
  | getAll =>
    have hs := update_sorted_cache_spec m ⟨hnd, hclean⟩
    refine ⟨hs.2.2 ▸ hnd, fun _ => hs.1⟩
  | search q =>
    have hs := update_sorted_cache_spec m ⟨hnd, hclean⟩
    by_cases hq : q = ""
    · subst hq
      simp only [NoteManager.step, NoteManager.search_notes, if_pos rfl,
        NoteManager.get_all_notes]
      exact ⟨hs.2.2 ▸ hnd, fun _ => hs.1⟩
    · simp only [NoteManager.step, NoteManager.search_notes, if_neg hq]
      exact ⟨hs.2.2 ▸ hnd, fun _ => hs.1⟩

/-- The invariant holds along every run from the fresh state. -/
theorem run_inv (m : NoteManager) (ops : List Op) (h : Inv m) :
    Inv (m.run ops) := by
  induction ops generalizing m with
  | nil => exact h
  | cons op rest ih => exact ih _ (step_inv m op h)

/-- The fresh state satisfies the invariant. -/
theorem init_inv (enc : Bool) : Inv (NoteManager.init enc) := by
  constructor
  · simp [NoteManager.init, keys]
  · intro h
    simp [NoteManager.init] at h

/-- `get_all_notes` on an invariant-satisfying state: the returned
    notes are a permutation of the mapping's values, sorted by the
    display order, and the cached ids are a permutation of the keys. -/
theorem get_all_spec (m : NoteManager) (h : Inv m) :
    (m.get_all_notes.1).Perm (m.notes.map Prod.snd) ∧
    (m.get_all_notes.1).Pairwise (fun a b =>
      (a.pinned = true ∨ b.pinned = false) ∧
      (a.pinned = b.pinned → b.updated_at ≤ a.updated_at)) ∧
    ((m.get_all_notes.2).sorted_note_ids).Perm (keys m.notes) := by
  obtain ⟨hok, hcd, hnotes⟩ := update_sorted_cache_spec m h
  obtain ⟨pairs, hperm, hids, hpw⟩ := hok
  have hnd : (keys m.update_sorted_cache.notes).Nodup := by
    rw [hnotes]
    exact h.1
  have hsub : ∀ p ∈ pairs, p ∈ m.update_sorted_cache.notes :=
    fun p hp => hperm.mem_iff.mp hp
  have hfm : m.get_all_notes.1 = pairs.map Prod.snd := by
    simp only [NoteManager.get_all_notes, hids]
    exact filterMap_get_eq pairs _ hsub hnd
  refine ⟨?_, ?_, ?_⟩
  · rw [hfm, ← hnotes]
    exact (hperm.map Prod.snd)
  · rw [hfm]
    refine hpw.map Prod.snd fun p q hpq => ?_
    have := (noteLe_iff p.2 q.2).mp hpq
    refine ⟨?_, this.2⟩
    cases hp : (p.2).pinned <;> cases hq : (q.2).pinned <;> simp_all
  · have : (m.get_all_notes.2).sorted_note_ids = pairs.map Prod.fst := by
      simp only [NoteManager.get_all_notes]
      exact hids
    rw [this, show keys m.notes = m.notes.map Prod.fst from rfl, ← hnotes]
    exact hperm.map Prod.fst

/-- C3: for every encryption flag and every finite sequence of add,
    delete, and mutate-access operations (interleaved with reads),
    `get_all_notes` returns exactly the mapping's notes — a permutation
    of its values, hence each present id exactly once and no other —
    ordered with pinned notes first and `updated_at` descending within
    each group; and whenever the dirty flag is clear, the sorted cache
    is a permutation of exactly the mapping's current keys. -/
theorem c3_get_all_invariant (enc : Bool) (ops : List Op) :
    ((((NoteManager.init enc).run ops).get_all_notes.1).Perm
      ((((NoteManager.init enc).run ops).notes).map Prod.snd)) ∧
    ((((NoteManager.init enc).run ops).get_all_notes.1).Pairwise
      (fun a b => (a.pinned = true ∨ b.pinned = false) ∧
        (a.pinned = b.pinned → b.updated_at ≤ a.updated_at))) ∧
    ((((NoteManager.init enc).run ops).cache_dirty = false →
      ((((NoteManager.init enc).run ops).sorted_note_ids)).Perm
        (keys (((NoteManager.init enc).run ops).notes)))) := by
  have hinv : Inv ((NoteManager.init enc).run ops) :=
    run_inv _ ops (init_inv enc)
  have hspec := get_all_spec _ hinv
  refine ⟨hspec.1, hspec.2.1, fun hcd => ?_⟩
  obtain ⟨pairs, hperm, hids, _⟩ := hinv.2 hcd
  rw [hids, show keys (((NoteManager.init enc).run ops).notes) =
    (((NoteManager.init enc).run ops).notes).map Prod.fst from rfl]
  exact hperm.map Prod.fst

/-- Witness for C3 at a concrete operation sequence. -/
theorem c3_witness :
    ((((NoteManager.init false).run
        [Op.add "x" 5 "t" "c", Op.add "y" 9 "u" "d", Op.del "x",
          Op.getAll]).get_all_notes.1).Perm
      ((((NoteManager.init false).run
        [Op.add "x" 5 "t" "c", Op.add "y" 9 "u" "d", Op.del "x",
          Op.getAll]).notes).map Prod.snd)) :=
  (c3_get_all_invariant false
    [Op.add "x" 5 "t" "c", Op.add "y" 9 "u" "d", Op.del "x", Op.getAll]).1

end TuiNotes
